import Mathlib

/-!
Verification of the bounded producer/consumer system in
`Assignment1_ProducerConsumer/producer_consumer.py`.

The Python program runs a producer thread (`ProducerConsumer.producer`) and a
consumer thread (`ProducerConsumer.consumer`) over a shared `queue.Queue` of
capacity `queue_capacity`.  We embed a run of the system as a small-step
transition relation on an explicit state:

* the producer's loop `for item in self.source: self.shared_queue.put(item)`
  becomes a `put` step, enabled when the queue is not full (Python's
  `queue.Queue` treats `maxsize <= 0` as unbounded, which the guard mirrors);
* one iteration of the consumer's loop body
  (`item = self.shared_queue.get()`, `self.destination.append(item)`,
  `self.shared_queue.task_done()`) becomes three micro-steps `take`,
  `append`, `ack`, tracked by a consumer phase so that interleavings with the
  producer are all represented;
* `start`'s final barrier (`producer_thread.join()`, `consumer_thread.join()`,
  `shared_queue.join()`) becomes the `Complete` predicate: producer loop
  finished, consumer loop finished, and every `put` matched by a `task_done`.

`putTrace` is a ghost field recording the exact sequence of items the producer
has put, used to state the producer's contract.
-/

/-- Consumer micro-phase inside one iteration of the consumer loop:
`ready` before `shared_queue.get()`, `tookItem x` after `get` returned `x` but
before `destination.append(x)`, `appendedItem x` after the append but before
`task_done()`. -/
inductive ConsPhase (α : Type) where
  | ready : ConsPhase α
  | tookItem : α → ConsPhase α
  | appendedItem : α → ConsPhase α
deriving DecidableEq, Repr

/-- State of one run of `ProducerConsumer`.  `source`, `destination` and
`maxsize` mirror `self.source`, `self.destination` and the queue's capacity;
`buffer` is the current FIFO content of `self.shared_queue`; `prodIdx` is the
number of completed `put` calls; `taken` the number of completed `get` calls;
`acked` the number of completed `task_done` calls; `phase` the consumer's
micro-phase; `putTrace` a ghost trace of the items put, in order. -/
structure PCState (α : Type) where
  source : List α
  maxsize : Int
  prodIdx : Nat
  buffer : List α
  destination : List α
  taken : Nat
  acked : Nat
  phase : ConsPhase α
  putTrace : List α
deriving DecidableEq, Repr

/-- The state right after `ProducerConsumer.__init__(source_data, queue_capacity)`:
`self.source = list(source_data)`, `self.destination = []`,
`self.shared_queue = queue.Queue(maxsize=queue_capacity)` (empty), and no
thread has run yet. -/
def initState {α : Type} (src : List α) (cap : Int) : PCState α :=
  { source := src
    maxsize := cap
    prodIdx := 0
    buffer := []
    destination := []
    taken := 0
    acked := 0
    phase := ConsPhase.ready
    putTrace := [] }

/-- Error taxonomy of the specification; the construction path is the only
place a configuration error could be surfaced. -/
inductive RunError where
  | configurationError : RunError
deriving DecidableEq, Repr

/-- Embedding of `ProducerConsumer.__init__`: the Python constructor performs
no validation of `queue_capacity` (and `queue.Queue` accepts any `maxsize`,
treating `maxsize <= 0` as unbounded), so construction always succeeds. -/
def mkProducerConsumer {α : Type} (src : List α) (cap : Int) :
    Except RunError (PCState α) :=
  Except.ok (initState src cap)

/-- Guard of `queue.Queue.put`: the call returns (rather than blocking) iff
`maxsize <= 0` (unbounded queue) or the queue currently holds fewer than
`maxsize` items. -/
def PutOk {α : Type} (s : PCState α) : Prop :=
  s.maxsize ≤ 0 ∨ (s.buffer.length : Int) < s.maxsize

instance {α : Type} (s : PCState α) : Decidable (PutOk s) := by
  unfold PutOk; infer_instance

/-- One interleaved step of the two threads.

* `put`: one iteration of the producer loop — enabled while the producer has
  items left and the queue is not full; enqueues the next source item at the
  back of the FIFO.
* `take`: `item = self.shared_queue.get()` — enabled while the consumer has
  iterations left (`for _ in range(len(self.source))`) and the queue is
  non-empty; dequeues the front item.
* `append`: `self.destination.append(item)`.
* `ack`: `self.shared_queue.task_done()`. -/
inductive Step {α : Type} : PCState α → PCState α → Prop where
  | put (s : PCState α) (h : s.prodIdx < s.source.length) (hg : PutOk s) :
      Step s { s with
        prodIdx := s.prodIdx + 1
        buffer := s.buffer ++ [s.source.get ⟨s.prodIdx, h⟩]
        putTrace := s.putTrace ++ [s.source.get ⟨s.prodIdx, h⟩] }
  | take (s : PCState α) (x : α) (rest : List α)
      (hn : s.taken < s.source.length) (hp : s.phase = ConsPhase.ready)
      (hb : s.buffer = x :: rest) :
      Step s { s with
        buffer := rest
        taken := s.taken + 1
        phase := ConsPhase.tookItem x }
  | append (s : PCState α) (x : α) (hp : s.phase = ConsPhase.tookItem x) :
      Step s { s with
        destination := s.destination ++ [x]
        phase := ConsPhase.appendedItem x }
  | ack (s : PCState α) (x : α) (hp : s.phase = ConsPhase.appendedItem x) :
      Step s { s with
        acked := s.acked + 1
        phase := ConsPhase.ready }

/-- Reachability of a state in the run started by
`ProducerConsumer(src, cap).start()`. -/
def Reachable {α : Type} (src : List α) (cap : Int) (s : PCState α) : Prop :=
  Relation.ReflTransGen Step (initState src cap) s

/-- The barrier at the end of `ProducerConsumer.start`: both threads were
joined (producer loop did all its puts, consumer loop did all its iterations
and is between iterations) and `shared_queue.join()` returned (every `put` has
a matching `task_done`). -/
def Complete {α : Type} (s : PCState α) : Prop :=
  s.prodIdx = s.source.length ∧ s.taken = s.source.length ∧
    s.phase = ConsPhase.ready ∧ s.acked = s.prodIdx

instance {α : Type} [DecidableEq α] (s : PCState α) : Decidable (Complete s) := by
  unfold Complete; infer_instance

/-- The success flag logged by `start`: `self.source == self.destination`. -/
def successFlag {α : Type} [DecidableEq α] (s : PCState α) : Bool :=
  decide (s.source = s.destination)

/-- Inductive invariant of the run.  The consumer-phase clauses track how much
of `source.take prodIdx` has moved from the queue into `destination`, and the
counter relations between `taken` and `acked`. -/
def PCInv {α : Type} (s : PCState α) : Prop :=
  s.prodIdx ≤ s.source.length ∧
  s.taken ≤ s.source.length ∧
  s.putTrace = s.source.take s.prodIdx ∧
  (1 ≤ s.maxsize → (s.buffer.length : Int) ≤ s.maxsize) ∧
  (s.phase = ConsPhase.ready →
    s.destination ++ s.buffer = s.source.take s.prodIdx ∧
      s.destination.length = s.taken ∧ s.acked = s.taken) ∧
  (∀ x, s.phase = ConsPhase.tookItem x →
    s.destination ++ x :: s.buffer = s.source.take s.prodIdx ∧
      s.destination.length + 1 = s.taken ∧ s.acked + 1 = s.taken) ∧
  (∀ x, s.phase = ConsPhase.appendedItem x →
    s.destination ++ s.buffer = s.source.take s.prodIdx ∧
      s.destination.length = s.taken ∧ s.acked + 1 = s.taken)

lemma take_push {α : Type} {l : List α} {p : Nat} (h : p < l.length) :
    l.take (p + 1) = l.take p ++ [l.get ⟨p, h⟩] := by
  rw [List.take_succ, List.getElem?_eq_getElem h]
  simp [List.get_eq_getElem]

lemma pcInv_init {α : Type} (src : List α) (cap : Int) : PCInv (initState src cap) := by
  refine ⟨Nat.zero_le _, Nat.zero_le _, rfl, ?_, ?_, ?_, ?_⟩
  · intro hcap
    simp only [initState, List.length_nil, Nat.cast_zero] at hcap ⊢
    omega
  · intro _
    exact ⟨rfl, rfl, rfl⟩
  · intro x hx
    simp [initState] at hx
  · intro x hx
    simp [initState] at hx

lemma pcInv_step {α : Type} {s s' : PCState α} (hi : PCInv s) (hs : Step s s') :
    PCInv s' := by
  obtain ⟨h1, h2, h3, h4, hready, htook, happ⟩ := hi
  cases hs with
  | put h hg =>
      refine ⟨h, h2, ?_, ?_, ?_, ?_, ?_⟩
      · simp only [take_push h, h3]
      · intro hcap
        dsimp only at hcap ⊢
        simp only [List.length_append, List.length_singleton]
        unfold PutOk at hg
        push_cast
        rcases hg with hg | hg <;> omega
      · intro hp
        obtain ⟨e1, e2, e3⟩ := hready hp
        refine ⟨?_, e2, e3⟩
        rw [take_push h, ← e1]
        simp
      · intro x hp
        obtain ⟨e1, e2, e3⟩ := htook x hp
        refine ⟨?_, e2, e3⟩
        rw [take_push h, ← e1]
        simp
      · intro x hp
        obtain ⟨e1, e2, e3⟩ := happ x hp
        refine ⟨?_, e2, e3⟩
        rw [take_push h, ← e1]
        simp
  | take x rest hn hp hb =>
      obtain ⟨e1, e2, e3⟩ := hready hp
      refine ⟨h1, hn, h3, ?_, ?_, ?_, ?_⟩
      · intro hcap
        dsimp only at hcap ⊢
        have hlen := h4 hcap
        rw [hb] at hlen
        simp only [List.length_cons] at hlen
        push_cast at hlen ⊢
        omega
      · intro hq; simp at hq
      · intro y hq
        dsimp only at hq ⊢
        simp only [ConsPhase.tookItem.injEq] at hq
        subst hq
        rw [hb] at e1
        exact ⟨e1, by omega, by omega⟩
      · intro y hq; simp at hq
  | append x hp =>
      obtain ⟨e1, e2, e3⟩ := htook x hp
      refine ⟨h1, h2, h3, h4, ?_, ?_, ?_⟩
      · intro hq; simp at hq
      · intro y hq; simp at hq
      · intro y hq
        dsimp only at hq ⊢
        simp only [ConsPhase.appendedItem.injEq] at hq
        subst hq
        refine ⟨by simpa using e1, ?_, e3⟩
        simp only [List.length_append, List.length_singleton]
        omega
  | ack x hp =>
      obtain ⟨e1, e2, e3⟩ := happ x hp
      refine ⟨h1, h2, h3, h4, ?_, ?_, ?_⟩
      · intro _
        dsimp only
        exact ⟨e1, e2, by omega⟩
      · intro y hq; simp at hq
      · intro y hq; simp at hq

lemma step_fixed {α : Type} {s s' : PCState α} (hs : Step s s') :
    s'.source = s.source ∧ s'.maxsize = s.maxsize := by
  cases hs <;> exact ⟨rfl, rfl⟩

lemma reachable_pcInv {α : Type} {src : List α} {cap : Int} {s : PCState α}
    (hr : Reachable src cap s) :
    PCInv s ∧ s.source = src ∧ s.maxsize = cap := by
  induction hr with
  | refl => exact ⟨pcInv_init src cap, rfl, rfl⟩
  | tail _ hstep ih =>
      obtain ⟨hi, hsrc, hcap⟩ := ih
      obtain ⟨e1, e2⟩ := step_fixed hstep
      exact ⟨pcInv_step hi hstep, e1.trans hsrc, e2.trans hcap⟩

lemma complete_state {α : Type} {src : List α} {cap : Int} {s : PCState α}
    (hr : Reachable src cap s) (hc : Complete s) :
    s.destination = src ∧ s.buffer = [] ∧ s.taken = src.length ∧
      s.acked = src.length ∧ s.putTrace = src := by
  obtain ⟨⟨h1, h2, h3, h4, hready, _, _⟩, hsrc, _⟩ := reachable_pcInv hr
  obtain ⟨hp, ht, hph, ha⟩ := hc
  obtain ⟨e1, e2, e3⟩ := hready hph
  rw [hp, List.take_length] at e1
  have hlen := congrArg List.length e1
  simp only [List.length_append] at hlen
  have hbuf : s.buffer = [] := by
    have : s.buffer.length = 0 := by omega
    exact List.length_eq_zero.mp this
  rw [hbuf, List.append_nil] at e1
  refine ⟨e1.trans hsrc, hbuf, ?_, ?_, ?_⟩
  · rw [ht, hsrc]
  · rw [ha, hp, hsrc]
  · rw [h3, hp, List.take_length, hsrc]

lemma progress {α : Type} {s : PCState α} (hi : PCInv s) :
    Complete s ∨ ∃ s', Step s s' := by
  obtain ⟨h1, h2, h3, h4, hready, htook, happ⟩ := hi
  cases hph : s.phase with
  | tookItem x => exact Or.inr ⟨_, Step.append s x hph⟩
  | appendedItem x => exact Or.inr ⟨_, Step.ack s x hph⟩
  | ready =>
      obtain ⟨e1, e2, e3⟩ := hready hph
      have hlen := congrArg List.length e1
      simp only [List.length_append, List.length_take, Nat.min_eq_left h1] at hlen
      by_cases ht : s.taken = s.source.length
      · left
        have hp : s.prodIdx = s.source.length := by omega
        exact ⟨hp, ht, hph, by omega⟩
      · have htlt : s.taken < s.source.length := lt_of_le_of_ne h2 ht
        cases hb : s.buffer with
        | cons x rest => exact Or.inr ⟨_, Step.take s x rest htlt hph hb⟩
        | nil =>
            rw [hb] at hlen
            simp only [List.length_nil] at hlen
            have hp : s.prodIdx < s.source.length := by omega
            refine Or.inr ⟨_, Step.put s hp ?_⟩
            unfold PutOk
            rw [hb]
            simp only [List.length_nil, Nat.cast_zero]
            omega

/-- Weight of the consumer micro-phase: number of micro-steps left in the
current consumer loop iteration. -/
def phaseWeight {α : Type} : ConsPhase α → Nat
  | ConsPhase.ready => 0
  | ConsPhase.tookItem _ => 2
  | ConsPhase.appendedItem _ => 1

/-- Termination measure of a run state: every step strictly decreases it. -/
def progressMeasure {α : Type} (s : PCState α) : Nat :=
  (s.source.length - s.prodIdx) + 3 * (s.source.length - s.taken) +
    phaseWeight s.phase

lemma step_measure {α : Type} {s s' : PCState α} (hs : Step s s') :
    progressMeasure s' < progressMeasure s := by
  cases hs with
  | put h hg =>
      unfold progressMeasure
      dsimp only
      omega
  | take x rest hn hp hb =>
      unfold progressMeasure
      dsimp only
      rw [hp]
      dsimp only [phaseWeight]
      omega
  | append x hp =>
      unfold progressMeasure
      dsimp only
      rw [hp]
      dsimp only [phaseWeight]
      omega
  | ack x hp =>
      unfold progressMeasure
      dsimp only
      rw [hp]
      dsimp only [phaseWeight]
      omega

lemma reaches_complete_of_measure {α : Type} :
    ∀ (n : Nat) (s : PCState α), PCInv s → progressMeasure s ≤ n →
      ∃ s', Relation.ReflTransGen Step s s' ∧ Complete s' := by
  intro n
  induction n with
  | zero =>
      intro s hi hm
      rcases progress hi with hc | ⟨s'', hstep⟩
      · exact ⟨s, Relation.ReflTransGen.refl, hc⟩
      · exact absurd (step_measure hstep) (by omega)
  | succ n ih =>
      intro s hi hm
      rcases progress hi with hc | ⟨s'', hstep⟩
      · exact ⟨s, Relation.ReflTransGen.refl, hc⟩
      · obtain ⟨t, htr, htc⟩ :=
          ih s'' (pcInv_step hi hstep) (by have := step_measure hstep; omega)
        exact ⟨t, Relation.ReflTransGen.head hstep htr, htc⟩

lemma run_reaches_complete {α : Type} (src : List α) (cap : Int) :
    ∃ s, Reachable src cap s ∧ Complete s := by
  obtain ⟨s, htr, hc⟩ :=
    reaches_complete_of_measure (progressMeasure (initState src cap))
      (initState src cap) (pcInv_init src cap) le_rfl
  exact ⟨s, htr, hc⟩

/-- Concrete run used by witnesses: `ProducerConsumer([5], queue_capacity=1)`. -/
def runA0 : PCState Nat := initState [5] 1

/-- After the producer's single `put`. -/
def runA1 : PCState Nat :=
  { source := [5], maxsize := 1, prodIdx := 1, buffer := [5], destination := [],
    taken := 0, acked := 0, phase := ConsPhase.ready, putTrace := [5] }

/-- After the consumer's `get`. -/
def runA2 : PCState Nat :=
  { runA1 with buffer := [], taken := 1, phase := ConsPhase.tookItem 5 }

/-- After the consumer's `destination.append`. -/
def runA3 : PCState Nat :=
  { runA2 with destination := [5], phase := ConsPhase.appendedItem 5 }

/-- After the consumer's `task_done`: the final, complete state. -/
def runA4 : PCState Nat :=
  { runA3 with acked := 1, phase := ConsPhase.ready }

lemma stepA01 : Step runA0 runA1 := Step.put runA0 (by decide) (by decide)

lemma stepA12 : Step runA1 runA2 := Step.take runA1 5 [] (by decide) rfl rfl

lemma stepA23 : Step runA2 runA3 := Step.append runA2 5 rfl

lemma stepA34 : Step runA3 runA4 := Step.ack runA3 5 rfl

lemma reachA1 : Reachable [5] 1 runA1 :=
  Relation.ReflTransGen.single stepA01

lemma reachA4 : Reachable [5] 1 runA4 :=
  ((reachA1.tail stepA12).tail stepA23).tail stepA34

lemma completeA4 : Complete runA4 := ⟨rfl, rfl, rfl, rfl⟩

/-- C1: for every source sequence and every run that reaches `Complete`, the
destination sequence equals the source sequence element-wise and in order. -/
theorem order_preservation {α : Type} (src : List α) (cap : Int)
    (s : PCState α) (hr : Reachable src cap s) (hc : Complete s) :
    s.destination = src :=
  (complete_state hr hc).1

theorem order_preservation_witness : runA4.destination = [5] :=
  order_preservation [5] 1 runA4 reachA4 completeA4

/-- C3: the run is never complete before every expected item has been taken
from the queue, appended to the destination, and acknowledged: in any
reachable complete state the acknowledgment count, the take count and the
destination length all equal the source length. -/
theorem complete_only_after_drain {α : Type} (src : List α) (cap : Int)
    (s : PCState α) (hr : Reachable src cap s) (hc : Complete s) :
    s.acked = src.length ∧ s.taken = src.length ∧
      s.destination.length = src.length := by
  obtain ⟨hd, _, ht, ha, _⟩ := complete_state hr hc
  exact ⟨ha, ht, by rw [hd]⟩

theorem complete_only_after_drain_witness :
    runA4.acked = [5].length ∧ runA4.taken = [5].length ∧
      runA4.destination.length = [5].length :=
  complete_only_after_drain [5] 1 runA4 reachA4 completeA4

/-- C4: for every run constructed with capacity ≥ 1, at every reachable
instant the number of buffered items satisfies `0 ≤ buffered ≤ capacity`. -/
theorem capacity_bound {α : Type} (src : List α) (cap : Int) (s : PCState α)
    (hcap : 1 ≤ cap) (hr : Reachable src cap s) :
    0 ≤ (s.buffer.length : Int) ∧ (s.buffer.length : Int) ≤ cap := by
  obtain ⟨⟨_, _, _, h4, _⟩, _, hms⟩ := reachable_pcInv hr
  rw [hms] at h4
  exact ⟨by omega, h4 hcap⟩

theorem capacity_bound_witness :
    0 ≤ (runA1.buffer.length : Int) ∧ (runA1.buffer.length : Int) ≤ 1 :=
  capacity_bound [5] 1 runA1 (by decide) reachA1

/-- C5: in every run the consumer performs at most `len source` takes and
exactly that many in a complete run; each taken item is appended and
acknowledged before the next take begins (`taken ≤ acked + 1`, and a take
only fires from the `ready` phase); the acknowledgment count never exceeds
the take count. -/
theorem consumer_contract {α : Type} (src : List α) (cap : Int)
    (s : PCState α) (hr : Reachable src cap s) :
    s.acked ≤ s.taken ∧ s.taken ≤ s.acked + 1 ∧ s.taken ≤ src.length ∧
      (s.phase = ConsPhase.ready → s.acked = s.taken) ∧
      (∀ s', Step s s' → s.taken < s'.taken → s.phase = ConsPhase.ready) ∧
      (Complete s → s.taken = src.length ∧ s.acked = src.length) := by
  obtain ⟨⟨h1, h2, h3, h4, hready, htook, happ⟩, hsrc, _⟩ := reachable_pcInv hr
  have hcnt : s.acked ≤ s.taken ∧ s.taken ≤ s.acked + 1 := by
    cases hph : s.phase with
    | ready => obtain ⟨_, _, e3⟩ := hready hph; omega
    | tookItem x => obtain ⟨_, _, e3⟩ := htook x hph; omega
    | appendedItem x => obtain ⟨_, _, e3⟩ := happ x hph; omega
  refine ⟨hcnt.1, hcnt.2, hsrc ▸ h2, fun hph => (hready hph).2.2, ?_, ?_⟩
  · intro s' hs hlt
    cases hs with
    | put h hg => dsimp only at hlt; omega
    | take x rest hn hp hb => exact hp
    | append x hp => dsimp only at hlt; omega
    | ack x hp => dsimp only at hlt; omega
  · intro hc
    have := complete_state hr hc
    exact ⟨this.2.2.1, this.2.2.2.1⟩

theorem consumer_contract_witness :
    runA4.acked ≤ runA4.taken ∧ runA4.taken ≤ runA4.acked + 1 ∧
      runA4.taken ≤ [5].length ∧
      (runA4.phase = ConsPhase.ready → runA4.acked = runA4.taken) ∧
      (∀ s', Step runA4 s' → runA4.taken < s'.taken →
        runA4.phase = ConsPhase.ready) ∧
      (Complete runA4 → runA4.taken = [5].length ∧ runA4.acked = [5].length) :=
  consumer_contract [5] 1 runA4 reachA4

/-- C6: with an empty source (`expected_count = 0`) the initial state is
already complete — the run reaches `Complete` with destination `[]` and the
success predicate true, without either thread taking a single blocking step. -/
theorem empty_source_immediate (α : Type) [DecidableEq α] (cap : Int) :
    Reachable ([] : List α) cap (initState [] cap) ∧
      Complete (initState ([] : List α) cap) ∧
      (initState ([] : List α) cap).destination = [] ∧
      successFlag (initState ([] : List α) cap) = true := by
  refine ⟨Relation.ReflTransGen.refl, ⟨rfl, rfl, rfl, rfl⟩, rfl, ?_⟩
  simp [successFlag, initState]

/-- C7: the producer puts exactly the source items, in source order, with no
reordering, skipping or duplication (its put trace is always the length-
`prodIdx` front of the source, and the whole source once complete), and a
producer step never mutates the destination. -/
theorem producer_contract {α : Type} (src : List α) (cap : Int)
    (s : PCState α) (hr : Reachable src cap s) :
    s.putTrace = src.take s.prodIdx ∧ s.prodIdx ≤ src.length ∧
      (Complete s → s.putTrace = src) ∧
      (∀ s', Step s s' → s.prodIdx < s'.prodIdx →
        s'.destination = s.destination) := by
  obtain ⟨⟨h1, h2, h3, _⟩, hsrc, _⟩ := reachable_pcInv hr
  refine ⟨by rw [h3, hsrc], hsrc ▸ h1,
    fun hc => (complete_state hr hc).2.2.2.2, ?_⟩
  intro s' hs hlt
  cases hs with
  | put h hg => rfl
  | take x rest hn hp hb => dsimp only at hlt; omega
  | append x hp => dsimp only at hlt; omega
  | ack x hp => dsimp only at hlt; omega

theorem producer_contract_witness :
    runA4.putTrace = [5].take runA4.prodIdx ∧ runA4.prodIdx ≤ [5].length ∧
      (Complete runA4 → runA4.putTrace = [5]) ∧
      (∀ s', Step runA4 s' → runA4.prodIdx < s'.prodIdx →
        s'.destination = runA4.destination) :=
  producer_contract [5] 1 runA4 reachA4

/-- C8: for every capacity ≥ 1 and every finite source, the run reaches
`Complete` in finite time: a complete state is reachable, every reachable
non-complete state has an enabled step (no deadlock), and every step strictly
decreases a natural-number measure (no infinite run). -/
theorem no_deadlock {α : Type} (src : List α) (cap : Int) (_hcap : 1 ≤ cap) :
    (∃ s, Reachable src cap s ∧ Complete s) ∧
      (∀ s : PCState α, Reachable src cap s → ¬Complete s → ∃ s', Step s s') ∧
      (∀ s s' : PCState α, Step s s' →
        progressMeasure s' < progressMeasure s) := by
  refine ⟨run_reaches_complete src cap, ?_, fun s s' hs => step_measure hs⟩
  intro s hr hnc
  rcases progress (reachable_pcInv hr).1 with hc | h
  · exact absurd hc hnc
  · exact h

theorem no_deadlock_witness :
    (∃ s, Reachable ([5] : List Nat) 1 s ∧ Complete s) ∧
      (∀ s : PCState Nat, Reachable [5] 1 s → ¬Complete s → ∃ s', Step s s') ∧
      (∀ s s' : PCState Nat, Step s s' →
        progressMeasure s' < progressMeasure s) :=
  no_deadlock [5] 1 (by decide)

/-- C9: the stored source sequence is a private copy fixed at construction:
it equals the constructor argument initially and in every reachable state of
the run, and in a complete state the success flag is precisely the comparison
of the destination against that unchanged copy. -/
theorem source_immutable {α : Type} [DecidableEq α] (src : List α) (cap : Int)
    (s : PCState α) (hr : Reachable src cap s) :
    (initState src cap).source = src ∧ s.source = src ∧
      (Complete s → successFlag s = decide (src = s.destination)) := by
  obtain ⟨_, hsrc, _⟩ := reachable_pcInv hr
  refine ⟨rfl, hsrc, fun _ => ?_⟩
  unfold successFlag
  rw [hsrc]

theorem source_immutable_witness :
    (initState [5] 1).source = [5] ∧ runA4.source = [5] ∧
      (Complete runA4 → successFlag runA4 = decide ([5] = runA4.destination)) :=
  source_immutable [5] 1 runA4 reachA4

/-- C10: the end result is deterministic: any two complete states reachable
from the same source and capacity have identical destinations and identical
success flags (both flags are in fact `true`). -/
theorem run_deterministic {α : Type} [DecidableEq α] (src : List α)
    (cap : Int) (s1 s2 : PCState α)
    (hr1 : Reachable src cap s1) (hc1 : Complete s1)
    (hr2 : Reachable src cap s2) (hc2 : Complete s2) :
    s1.destination = s2.destination ∧ successFlag s1 = successFlag s2 := by
  have d1 := (complete_state hr1 hc1).1
  have d2 := (complete_state hr2 hc2).1
  obtain ⟨_, hs1, _⟩ := reachable_pcInv hr1
  obtain ⟨_, hs2, _⟩ := reachable_pcInv hr2
  refine ⟨d1.trans d2.symm, ?_⟩
  unfold successFlag
  rw [hs1, hs2, d1, d2]

theorem run_deterministic_witness :
    runA4.destination = runA4.destination ∧
      successFlag runA4 = successFlag runA4 :=
  run_deterministic [5] 1 runA4 runA4 reachA4 completeA4 reachA4 completeA4

/-- C2 counterexample: constructing the system with capacity `0 < 1` does not
fail — `ProducerConsumer.__init__` performs no validation, so construction
succeeds and returns the usual initial state. -/
theorem construction_capacity_zero_succeeds :
    mkProducerConsumer ([1, 2, 3] : List Nat) 0 =
      Except.ok (initState [1, 2, 3] 0) := rfl

/-- C2 amended: for every capacity strictly less than 1, construction
nevertheless succeeds (no configuration error is raised; Python's
`queue.Queue` treats `maxsize ≤ 0` as unbounded) and the run proceeds all
the way to a complete state. -/
theorem construction_no_validation {α : Type} (src : List α) (cap : Int)
    (_hcap : cap < 1) :
    mkProducerConsumer src cap = Except.ok (initState src cap) ∧
      ∃ s, Reachable src cap s ∧ Complete s :=
  ⟨rfl, run_reaches_complete src cap⟩

theorem construction_no_validation_witness :
    mkProducerConsumer ([7] : List Nat) 0 = Except.ok (initState [7] 0) ∧
      ∃ s, Reachable ([7] : List Nat) 0 s ∧ Complete s :=
  construction_no_validation [7] 0 (by decide)
